import Mathlib

/-!
Verification of the GeneChain scheduler / block-memory subsystem.

Shallow embedding of:
- services/cache/base.py   (class Memory: first-fit free-list allocator)
- services/cache/manager.py (class SingleMemoryManager: capacity-bounded store
  with LRU/FIFO eviction)
- services/cache/memory.py (class UniformedMemoryManager: block pool with
  per-agent allocation records)
- services/dispatch/queue.py (class Scheduler: per-kind worker loops)

Machine integers of the Python source are modelled as Lean Int (Python ints
are unbounded); byte buffers as List Nat; Python dicts as insertion-ordered
association lists.
-/

set_option maxHeartbeats 1000000

namespace GeneChain

/-! ## Python dictionary model (insertion-ordered association list) -/

section PyDict

variable {κ : Type} {α : Type} [DecidableEq κ]

/-- Python dict assignment on an insertion-ordered association list:
an existing key keeps its position and receives the new value, a new key is
appended at the end (CPython dict semantics). -/
def dictSet : List (κ × α) → κ → α → List (κ × α)
  | [], k, v => [(k, v)]
  | (k', v') :: rest, k, v =>
    if k' = k then (k, v) :: rest else (k', v') :: dictSet rest k v

/-- Python dict lookup: the value of the first (only) matching key. -/
def dictGet : List (κ × α) → κ → Option α
  | [], _ => none
  | (k', v') :: rest, k => if k' = k then some v' else dictGet rest k

/-- Python `del d[k]` / `d.pop(k)`: removes the entry of key `k`. -/
def dictDel : List (κ × α) → κ → List (κ × α)
  | [], _ => []
  | (k', v') :: rest, k => if k' = k then rest else (k', v') :: dictDel rest k

/-- Whether the dict holds key `k`. -/
def hasKey (l : List (κ × α)) (k : κ) : Bool := (dictGet l k).isSome

end PyDict

/-! ## Memory: first-fit free-list allocator (services/cache/base.py)

A free-list entry is a pair (start, end) with inclusive end, exactly like the
tuples held by `Memory.free_blocks`. -/

/-- Initial free list of `Memory.__init__(size)`: `[(0, size - 1)]`. -/
def memInitFree (cap : Int) : List (Int × Int) := [(0, cap - 1)]

/-- `Memory.mem_alloc` (base.py lines 21-32): first-fit scan of the free list;
the first range whose length `end - start + 1` is at least `size` is consumed
from its start; if the range is used up it is removed, otherwise the remainder
`(allocated_end + 1, end)` replaces it in place; returns `none` when no single
range is large enough (the `MemoryError` raise). -/
def mem_alloc : List (Int × Int) → Int → Option (Int × List (Int × Int))
  | [], _ => none
  | (s, e) :: rest, size =>
    if size ≤ e - s + 1 then
      if s + size - 1 = e then some (s, rest)
      else some (s, (s + size, e) :: rest)
    else
      match mem_alloc rest size with
      | none => none
      | some (a, rest') => some (a, (s, e) :: rest')

/-- Python tuple comparison (lexicographic order) on pairs of ints, as used by
`list.sort()` on `free_blocks`. -/
def tupLe (a b : Int × Int) : Prop := a.1 < b.1 ∨ (a.1 = b.1 ∧ a.2 ≤ b.2)

instance : DecidableRel tupLe := fun a b =>
  inferInstanceAs (Decidable (a.1 < b.1 ∨ (a.1 = b.1 ∧ a.2 ≤ b.2)))

instance : IsTotal (Int × Int) tupLe := ⟨by intro a b; unfold tupLe; omega⟩

instance : IsTrans (Int × Int) tupLe := ⟨by intro a b c; unfold tupLe; omega⟩

/-- Python `list.sort()`: stable sort by ascending tuple order. -/
def pysort (l : List (Int × Int)) : List (Int × Int) := List.insertionSort tupLe l

/-- `Memory.mem_clear` (base.py lines 34-37): append the freed range
`(start, start + size - 1)` to the free list and re-sort it. -/
def mem_clear (free : List (Int × Int)) (start size : Int) : List (Int × Int) :=
  pysort (free ++ [(start, start + size - 1)])

/-- `Memory.mem_write` (base.py lines 39-44): raises `MemoryError` (returns
`none`) when `address + len(data) > capacity`, otherwise stores the bytes
one by one at `address`. -/
def mem_write (cap : Nat) (mem : List Nat) (address : Nat) (data : List Nat) :
    Option (List Nat) :=
  if cap < address + data.length then none
  else some (mem.take address ++ data ++ mem.drop (address + data.length))

/-- `Memory.mem_read` (base.py lines 46-48): a Python slice
`memory[address : address + size]` with no bounds check; a slice past the end
silently truncates instead of raising. -/
def mem_read (mem : List Nat) (address size : Nat) : List Nat :=
  (mem.drop address).take size

/-! ## Block state machine for allocate/free sequences (claim C2)

The ghost component `allocated` records the live allocations (start, size)
returned by `mem_alloc` and not yet freed; the source keeps only the free
list, the ghost is what "Σ allocated" ranges over. -/

structure BlockState where
  free_blocks : List (Int × Int)
  allocated : List (Int × Int)
deriving DecidableEq

inductive MemOp where
  | alloc (size : Int)
  | clear (start size : Int)
deriving DecidableEq

/-- The state of a fresh `Memory(cap)`: the whole block free, nothing allocated. -/
def memInitState (cap : Int) : BlockState := ⟨memInitFree cap, []⟩

/-- Remove one occurrence of a record from the ghost allocation list. -/
def removeAlloc : List (Int × Int) → Int × Int → List (Int × Int)
  | [], _ => []
  | r :: rest, x => if r = x then rest else r :: removeAlloc rest x

/-- One `mem_alloc` / `mem_clear` call. A failing `mem_alloc` (the raise)
leaves the state unchanged; a successful one records the returned range as
allocated; `mem_clear start size` returns that range to the free list. -/
def stepOp (st : BlockState) : MemOp → BlockState
  | .alloc size =>
    match mem_alloc st.free_blocks size with
    | none => st
    | some (a, fb) => ⟨fb, (a, size) :: st.allocated⟩
  | .clear start size =>
    ⟨mem_clear st.free_blocks start size, removeAlloc st.allocated (start, size)⟩

def runOps (st : BlockState) (ops : List MemOp) : BlockState := ops.foldl stepOp st

/-- A call is valid when it allocates a positive size, or frees exactly one
currently live allocation (the usage contract of `mem_clear`). -/
def validOp (st : BlockState) : MemOp → Bool
  | .alloc size => 1 ≤ size
  | .clear start size => (start, size) ∈ st.allocated

def validOps (st : BlockState) : List MemOp → Bool
  | [] => true
  | op :: ops => validOp st op && validOps (stepOp st op) ops

/-- Total length of the free-list ranges (inclusive ends). -/
def sumFree (free : List (Int × Int)) : Int := (free.map (fun r => r.2 - r.1 + 1)).sum

/-- Total size of the live allocations. -/
def sumAlloc (alloc : List (Int × Int)) : Int := (alloc.map (fun r => r.2)).sum

/-- Well-formed free list: every range nonempty and inside the block, and the
ranges in strictly increasing, non-touching-proof order (each range ends
before the next begins). -/
def FreeWF (cap : Int) (free : List (Int × Int)) : Prop :=
  (∀ r ∈ free, 0 ≤ r.1 ∧ r.1 ≤ r.2 ∧ r.2 < cap) ∧
  free.Pairwise (fun a b => a.2 < b.1)

/-- Well-formed allocations: positive sizes inside the block, pairwise disjoint
as half-open ranges `[start, start + size)`. -/
def AllocWF (cap : Int) (alloc : List (Int × Int)) : Prop :=
  (∀ r ∈ alloc, 1 ≤ r.2 ∧ 0 ≤ r.1 ∧ r.1 + r.2 ≤ cap) ∧
  alloc.Pairwise (fun a b => a.1 + a.2 ≤ b.1 ∨ b.1 + b.2 ≤ a.1)

/-- Free ranges and live allocations never overlap. -/
def FreeAllocDisj (free alloc : List (Int × Int)) : Prop :=
  ∀ f ∈ free, ∀ a ∈ alloc, f.2 < a.1 ∨ a.1 + a.2 ≤ f.1

/-- The block invariant of claim C2 (plus the strengthening that makes it
inductive). -/
def BlockInv (cap : Int) (st : BlockState) : Prop :=
  FreeWF cap st.free_blocks ∧ AllocWF cap st.allocated ∧
  FreeAllocDisj st.free_blocks st.allocated ∧
  sumFree st.free_blocks + sumAlloc st.allocated = cap

/-! ## SingleMemoryManager (services/cache/manager.py)

The wall clock `time.time()` is modelled by a logical counter stored in the
manager state, incremented at each reading, so successive readings are
strictly increasing. -/

structure CacheEntry where
  value : String
  timestamp : Nat
deriving DecidableEq

structure MemoryStore where
  memory_limit : Nat
  eviction_k : String
  store : List (String × CacheEntry)
  clock : Nat
deriving DecidableEq

/-- `SingleMemoryManager.__init__`: empty store. -/
def initStore (limit : Nat) (policy : String) : MemoryStore :=
  { memory_limit := limit, eviction_k := policy, store := [], clock := 0 }

/-- The scan of Python `min(store, key = timestamp)` over the entries in dict
iteration order, returning the key with the minimal timestamp (first wins on
ties) together with that timestamp. -/
def minByTs : List (String × CacheEntry) → Option (String × Nat)
  | [] => none
  | (k, e) :: rest =>
    match minByTs rest with
    | none => some (k, e.timestamp)
    | some (k', t') =>
      if e.timestamp ≤ t' then some (k, e.timestamp) else some (k', t')

/-- `SingleMemoryManager.evict_lru` (manager.py lines 53-56): when the store is
nonempty, delete the key with the oldest timestamp. -/
def evict_lru (m : MemoryStore) : MemoryStore :=
  match minByTs m.store with
  | none => m
  | some (oldest_key, _) => { m with store := dictDel m.store oldest_key }

/-- `SingleMemoryManager.evict_fifo` (manager.py lines 58-61): when the store
is nonempty, delete the first key in dict iteration order. -/
def evict_fifo (m : MemoryStore) : MemoryStore :=
  match m.store with
  | [] => m
  | (first_key, _) :: _ => { m with store := dictDel m.store first_key }

/-- `SingleMemoryManager.evict_memory` (manager.py lines 47-51): dispatch on
the configured policy string; any other policy evicts nothing. -/
def evict_memory (m : MemoryStore) : MemoryStore :=
  if m.eviction_k = "LRU" then evict_lru m
  else if m.eviction_k = "FIFO" then evict_fifo m
  else m

/-- `SingleMemoryManager.write_memory` (manager.py lines 24-27): evict first
when `len(store) >= limit`, then insert the entry with a fresh timestamp. -/
def write_memory (m : MemoryStore) (key value : String) : MemoryStore :=
  let m1 := if m.memory_limit ≤ m.store.length then evict_memory m else m
  { m1 with
    store := dictSet m1.store key ⟨value, m1.clock⟩,
    clock := m1.clock + 1 }

/-- `SingleMemoryManager.read_memory` (manager.py lines 29-34): return the
stored value (or None); the entry, its timestamp included, is not modified. -/
def read_memory (m : MemoryStore) (key : String) : Option String × MemoryStore :=
  match dictGet m.store key with
  | some entry => (some entry.value, m)
  | none => (none, m)

/-- `SingleMemoryManager.delete_memory` (manager.py lines 36-38). -/
def delete_memory (m : MemoryStore) (key : String) : MemoryStore :=
  if hasKey m.store key then { m with store := dictDel m.store key } else m

/-- `SingleMemoryManager.update_memory` (manager.py lines 40-45): refresh value
and timestamp in place when present, else fall back to `write_memory`. -/
def update_memory (m : MemoryStore) (key value : String) : MemoryStore :=
  if hasKey m.store key then
    { m with
      store := dictSet m.store key ⟨value, m.clock⟩,
      clock := m.clock + 1 }
  else write_memory m key value

inductive CacheOp where
  | write (key value : String)
  | read (key : String)
  | delete (key : String)
  | update (key value : String)
deriving DecidableEq

/-- `SingleMemoryManager.address_request` (manager.py lines 14-22). -/
def address_request (m : MemoryStore) : CacheOp → MemoryStore
  | .write k v => write_memory m k v
  | .read k => (read_memory m k).2
  | .delete k => delete_memory m k
  | .update k v => update_memory m k v

def runCache (m : MemoryStore) (ops : List CacheOp) : MemoryStore :=
  ops.foldl address_request m

/-! ## UniformedMemoryManager (services/cache/memory.py) -/

/-- A Python dict key: the allocation record written by `mem_alloc`
(memory.py lines 79-83) uses the string keys "memory_block_id", "address" and
"size", while `mem_read` (lines 60-68) indexes the same record with the
integer `round_id`. -/
inductive PyKey where
  | s (v : String)
  | i (v : Int)
deriving DecidableEq

structure UMMState where
  memory_blocks : List (List (Int × Int))
  free_memory_blocks : List Int
  aid_to_memory : List (Int × List (PyKey × Int))
deriving DecidableEq

/-- `UniformedMemoryManager.__init__`: `memory_block_num` blocks of capacity
`max_memory_block_size`, every block id in the free heap, no records. -/
def ummInit (max_memory_block_size : Int) (memory_block_num : Nat) : UMMState :=
  { memory_blocks := List.replicate memory_block_num (memInitFree max_memory_block_size),
    free_memory_blocks := (List.range memory_block_num).map Int.ofNat,
    aid_to_memory := [] }

/-- `heapq.heappop`: removes and returns the smallest element. The heap is
modelled by the multiset of its elements, which is all that pop and push
observe. -/
def heappop (h : List Int) : Option (Int × List Int) :=
  match h.min? with
  | none => none
  | some m => some (m, h.erase m)

/-- `heapq.heappush`. -/
def heappush (h : List Int) (x : Int) : List Int := x :: h

/-- `UniformedMemoryManager.mem_alloc` (memory.py lines 70-85): raise when the
free-block heap is empty; otherwise pop the smallest free block id, run the
block's first-fit `mem_alloc` (whose raise propagates with the pop already
done), then overwrite `aid_to_memory[agent_id]` with the flat record of the
three string keys and return the address. -/
def umm_mem_alloc (st : UMMState) (agent_id size : Int) :
    Except String Int × UMMState :=
  match heappop st.free_memory_blocks with
  | none => (Except.error "No free memory blocks available.", st)
  | some (memory_block_id, restHeap) =>
    match mem_alloc (st.memory_blocks.getD memory_block_id.toNat []) size with
    | none =>
      (Except.error "No sufficient memory available.",
        { st with free_memory_blocks := restHeap })
    | some (address, blk') =>
      (Except.ok address,
        { st with
          memory_blocks := st.memory_blocks.set memory_block_id.toNat blk',
          free_memory_blocks := restHeap,
          aid_to_memory := dictSet st.aid_to_memory agent_id
            [(PyKey.s "memory_block_id", memory_block_id),
             (PyKey.s "address", address),
             (PyKey.s "size", size)] })

/-- `UniformedMemoryManager.mem_read` (memory.py lines 60-68): evaluates
`self.aid_to_memory[agent_id][round_id]["memory_block_id"]`. The first index
is the agent lookup; the second indexes the flat record with the integer
round id (a KeyError for records written by `mem_alloc`, whose keys are the
three strings); if a value were found it would be an int, so the third
subscript would be a TypeError. -/
def umm_mem_read (st : UMMState) (agent_id round_id : Int) :
    Except String (List Nat) × UMMState :=
  match dictGet st.aid_to_memory agent_id with
  | none => (Except.error "KeyError: agent_id", st)
  | some record =>
    match dictGet record (PyKey.i round_id) with
    | none => (Except.error "KeyError: round_id", st)
    | some _ => (Except.error "TypeError: int is not subscriptable", st)

/-- `UniformedMemoryManager.mem_clear` (memory.py lines 87-95): raise when the
agent has no record; otherwise pop the record and push its block id back onto
the free heap. -/
def umm_mem_clear (st : UMMState) (agent_id : Int) :
    Except String Unit × UMMState :=
  match dictGet st.aid_to_memory agent_id with
  | none => (Except.error "Agent ID not found in memory allocation.", st)
  | some record =>
    let st1 := { st with aid_to_memory := dictDel st.aid_to_memory agent_id }
    match dictGet record (PyKey.s "memory_block_id") with
    | none => (Except.error "KeyError: memory_block_id", st1)
    | some memory_block_id =>
      (Except.ok (),
        { st1 with
          free_memory_blocks := heappush st1.free_memory_blocks memory_block_id })

/-- The manager state after a first successful `mem_alloc(7, 10)` on a fresh
two-block pool: agent 7 holds block 0, block 1 is the only free block. -/
def ummAfterFirst : UMMState := (umm_mem_alloc (ummInit 1024 2) 7 10).2

/-! ## Scheduler worker dispatch (services/dispatch/queue.py) -/

deriving instance DecidableEq for Except

/-- A storage request as the worker sees it. `handler` is the outcome of the
`storage_manager.address_request` call for this request (an exception or a
response); `error` is the spec's per-request error field -- the dispatch code
contains no call that writes it. -/
structure StorageSyscall where
  status : String
  start_time : Option Nat
  end_time : Option Nat
  response : Option String
  event_set : Bool
  error : Option String
  handler : Except String String
deriving DecidableEq

/-- Example request whose storage handler raises. -/
def reqRaising : StorageSyscall :=
  ⟨"queued", none, none, none, false, none, Except.error "boom"⟩

/-- Example request whose storage handler succeeds. -/
def reqSucceeding : StorageSyscall :=
  ⟨"queued", none, none, none, false, none, Except.ok "stored"⟩

/-- One setter statement of the worker body. -/
inductive DispatchAction where
  | set_status (s : String)
  | set_start_time (t : Nat)
  | set_response (r : String)
  | event_set
  | set_end_time (t : Nat)
deriving DecidableEq

def applyAction (req : StorageSyscall) : DispatchAction → StorageSyscall
  | .set_status s => { req with status := s }
  | .set_start_time t => { req with start_time := some t }
  | .set_response r => { req with response := some r }
  | .event_set => { req with event_set := true }
  | .set_end_time t => { req with end_time := some t }

/-- The setter sequence of a successful iteration of
`Scheduler.run_storage_syscall` (queue.py lines 149-156), in source order. -/
def successActions (t1 t2 : Nat) (r : String) : List DispatchAction :=
  [.set_status "executing", .set_start_time t1, .set_response r,
   .event_set, .set_status "done", .set_end_time t2]

/-- One iteration of the worker body on a dequeued request: the two setters
before the manager call always run; if the manager raises, the
`except Exception` arm only prints a traceback, leaving the request exactly
as it was at the raise; otherwise the remaining setters run in order. -/
def runStorageSyscallStep (t1 t2 : Nat) (req : StorageSyscall) : StorageSyscall :=
  let req1 := applyAction (applyAction req (.set_status "executing")) (.set_start_time t1)
  match req1.handler with
  | .error _ => req1
  | .ok r => ((successActions t1 t2 r).drop 2).foldl applyAction req1

/-- The storage worker loop over the queued requests: each iteration handles
one dequeued request, and an exception only ends the iteration
(`while self.active` continues), so every queued request is processed.
Successive `time.time()` readings are modelled by an increasing counter. -/
def runStorageLoop (t : Nat) : List StorageSyscall → List StorageSyscall
  | [] => []
  | req :: rest => runStorageSyscallStep t (t + 1) req :: runStorageLoop (t + 2) rest

/-! ## Scheduler start (services/dispatch/queue.py lines 97-100) -/

structure PyThread where
  started : Bool
deriving DecidableEq

structure SchedulerState where
  active : Bool
  request_processors : List PyThread
deriving DecidableEq

/-- A fresh `Scheduler.__init__` (queue.py lines 83-91): not active, one
not-yet-started worker thread per resource kind (llm, memory, storage, tool). -/
def schedulerInit : SchedulerState :=
  { active := false,
    request_processors := [⟨false⟩, ⟨false⟩, ⟨false⟩, ⟨false⟩] }

/-- `threading.Thread.start`: raises RuntimeError when the thread was already
started, otherwise launches it. Returns (raised error, thread, launched?). -/
def threadStart (t : PyThread) : Option String × PyThread × Bool :=
  if t.started then (some "threads can only be started once", t, false)
  else (none, ⟨true⟩, true)

/-- Start every processor thread in order, stopping at the first exception
(threads started before it stay started); returns the raised error if any,
the updated threads, and how many worker loops this call launched. -/
def startThreadList : List PyThread → Option String × List PyThread × Nat
  | [] => (none, [], 0)
  | t :: ts =>
    match threadStart t with
    | (some e, t', _) => (some e, t' :: ts, 0)
    | (none, t', _) =>
      match startThreadList ts with
      | (err, ts', n) => (err, t' :: ts', n + 1)

/-- `Scheduler.start` (queue.py lines 97-100): set `active = True`, then call
`Thread.start()` on each processor in turn; a RuntimeError from a thread
propagates to the caller (there is no already-running guard in the method). -/
def schedulerStart (s : SchedulerState) : Option String × SchedulerState × Nat :=
  let s1 : SchedulerState := { s with active := true }
  match startThreadList s1.request_processors with
  | (err, ps, n) => (err, { s1 with request_processors := ps }, n)

/-! # Theorems -/

/-! ## Dictionary lemmas -/

theorem dictGet_dictSet_self {κ α : Type} [DecidableEq κ]
    (l : List (κ × α)) (k : κ) (v : α) :
    dictGet (dictSet l k v) k = some v := by
  induction l with
  | nil => simp [dictSet, dictGet]
  | cons hd rest ih =>
    obtain ⟨k', v'⟩ := hd
    by_cases h : k' = k
    · simp [dictSet, dictGet, h]
    · simp [dictSet, dictGet, h, ih]

theorem hasKey_of_mem {κ α : Type} [DecidableEq κ]
    {l : List (κ × α)} {k : κ} {v : α} (h : (k, v) ∈ l) :
    hasKey l k = true := by
  induction l with
  | nil => simp at h
  | cons hd rest ih =>
    obtain ⟨k', v'⟩ := hd
    rcases List.mem_cons.mp h with h1 | h2
    · obtain ⟨rfl, rfl⟩ := Prod.mk.injEq .. |>.mp h1.symm
      simp [hasKey, dictGet]
    · by_cases hk : k' = k
      · simp [hasKey, dictGet, hk]
      · simpa [hasKey, dictGet, hk] using ih h2

theorem length_dictSet {κ α : Type} [DecidableEq κ]
    (l : List (κ × α)) (k : κ) (v : α) :
    (dictSet l k v).length =
      if hasKey l k then l.length else l.length + 1 := by
  induction l with
  | nil => simp [dictSet, hasKey, dictGet]
  | cons hd rest ih =>
    obtain ⟨k', v'⟩ := hd
    by_cases h : k' = k
    · simp [dictSet, hasKey, dictGet, h]
    · simp only [dictSet, if_neg h, List.length_cons, hasKey, dictGet, ih]
      by_cases h2 : (dictGet rest k).isSome <;> simp [hasKey, h2]

theorem length_dictDel {κ α : Type} [DecidableEq κ]
    (l : List (κ × α)) (k : κ) :
    (dictDel l k).length =
      if hasKey l k then l.length - 1 else l.length := by
  induction l with
  | nil => simp [dictDel, hasKey, dictGet]
  | cons hd rest ih =>
    obtain ⟨k', v'⟩ := hd
    by_cases h : k' = k
    · simp [dictDel, hasKey, dictGet, h]
    · simp only [dictDel, if_neg h, List.length_cons, hasKey, dictGet, ih]
      by_cases h2 : (dictGet rest k).isSome
      · have : 1 ≤ rest.length := by
          cases rest with
          | nil => simp [dictGet] at h2
          | cons a b => simp
        simp [hasKey, h2]
        omega
      · simp [hasKey, h2]

/-! ## Memory allocator lemmas (claims C4, C6) -/

theorem mem_alloc_cons (s e size : Int) (rest : List (Int × Int)) :
    mem_alloc ((s, e) :: rest) size =
      if size ≤ e - s + 1 then
        if s + size - 1 = e then some (s, rest)
        else some (s, (s + size, e) :: rest)
      else
        match mem_alloc rest size with
        | none => none
        | some (a, rest') => some (a, (s, e) :: rest') := rfl

theorem mem_alloc_cons_nofit (s e size : Int) (rest : List (Int × Int))
    (h : ¬ size ≤ e - s + 1) :
    mem_alloc ((s, e) :: rest) size =
      (mem_alloc rest size).map (fun p => (p.1, (s, e) :: p.2)) := by
  rw [mem_alloc_cons, if_neg h]
  cases mem_alloc rest size with
  | none => rfl
  | some p => rfl

theorem mem_alloc_none_iff (free : List (Int × Int)) (size : Int) :
    mem_alloc free size = none ↔ ∀ r ∈ free, r.2 - r.1 + 1 < size := by
  induction free with
  | nil => simp [mem_alloc]
  | cons hd rest ih =>
    obtain ⟨s, e⟩ := hd
    by_cases hfit : size ≤ e - s + 1
    · rw [mem_alloc_cons, if_pos hfit]
      constructor
      · intro h
        split at h <;> cases h
      · intro h
        have h2 := h (s, e) (List.mem_cons_self _ _)
        have h3 : e - s + 1 < size := h2
        omega
    · rw [mem_alloc_cons_nofit s e size rest hfit]
      rw [Option.map_eq_none', ih]
      constructor
      · intro h r hr
        rcases List.mem_cons.mp hr with h1 | h2
        · subst h1
          show e - s + 1 < size
          omega
        · exact h r h2
      · intro h r hr
        exact h r (List.mem_cons_of_mem _ hr)

theorem mem_alloc_spec (free : List (Int × Int)) (size a : Int)
    (free' : List (Int × Int)) (h : mem_alloc free size = some (a, free')) :
    ∃ l1 s e l2, free = l1 ++ (s, e) :: l2 ∧
      (∀ r ∈ l1, r.2 - r.1 + 1 < size) ∧ size ≤ e - s + 1 ∧ a = s ∧
      ((s + size - 1 = e ∧ free' = l1 ++ l2) ∨
       (s + size - 1 ≠ e ∧ free' = l1 ++ (s + size, e) :: l2)) := by
  induction free generalizing free' with
  | nil => simp [mem_alloc] at h
  | cons hd rest ih =>
    obtain ⟨s, e⟩ := hd
    by_cases hfit : size ≤ e - s + 1
    · rw [mem_alloc_cons, if_pos hfit] at h
      by_cases heq : s + size - 1 = e
      · rw [if_pos heq] at h
        simp only [Option.some.injEq, Prod.mk.injEq] at h
        obtain ⟨h1, h2⟩ := h
        exact ⟨[], s, e, rest, by simp, by simp, hfit, h1.symm,
          Or.inl ⟨heq, h2.symm⟩⟩
      · rw [if_neg heq] at h
        simp only [Option.some.injEq, Prod.mk.injEq] at h
        obtain ⟨h1, h2⟩ := h
        exact ⟨[], s, e, rest, by simp, by simp, hfit, h1.symm,
          Or.inr ⟨heq, h2.symm⟩⟩
    · rw [mem_alloc_cons_nofit s e size rest hfit] at h
      cases hrec : mem_alloc rest size with
      | none =>
        rw [hrec] at h
        cases h
      | some p =>
        obtain ⟨a', rest'⟩ := p
        rw [hrec] at h
        simp only [Option.map_some', Option.some.injEq, Prod.mk.injEq] at h
        obtain ⟨h1, h2⟩ := h
        rw [h1] at hrec
        obtain ⟨l1, s', e', l2, hsplit, hsmall, hfit', ha, hshape⟩ := ih rest' hrec
        refine ⟨(s, e) :: l1, s', e', l2, ?_, ?_, hfit', ha, ?_⟩
        · rw [List.cons_append, hsplit]
        · intro r hr
          rcases List.mem_cons.mp hr with h3 | h4
          · subst h3
            show e - s + 1 < size
            omega
          · exact hsmall r h4
        · rcases hshape with ⟨hc, hfr⟩ | ⟨hc, hfr⟩
          · refine Or.inl ⟨hc, ?_⟩
            rw [← h2, hfr, List.cons_append]
          · refine Or.inr ⟨hc, ?_⟩
            rw [← h2, hfr, List.cons_append]

/-- C4: `Memory.mem_alloc` is first-fit: it fails (raising `OutOfMemory`)
exactly when no single free range has length at least `size`, even if the
total free space would suffice; on success it returns the start offset of the
first free range, in list order, whose length is at least `size`. Scenario B:
on a fresh block of capacity 100, `allocate(150)` fails; `allocate(50)`
returns offset 0 leaving `[(50, 99)]` free; `allocate(60)` then fails even
though 50 bytes remain. -/
theorem mem_alloc_first_fit :
    (∀ (free : List (Int × Int)) (size : Int),
        mem_alloc free size = none ↔ ∀ r ∈ free, r.2 - r.1 + 1 < size) ∧
    (∀ (free free' : List (Int × Int)) (size a : Int),
        mem_alloc free size = some (a, free') →
        ∃ l1 s e l2, free = l1 ++ (s, e) :: l2 ∧
          (∀ r ∈ l1, r.2 - r.1 + 1 < size) ∧ size ≤ e - s + 1 ∧ a = s) ∧
    mem_alloc (memInitFree 100) 150 = none ∧
    mem_alloc (memInitFree 100) 50 = some (0, [(50, 99)]) ∧
    mem_alloc [((50 : Int), 99)] 60 = none := by
  refine ⟨mem_alloc_none_iff, ?_, by decide, by decide, by decide⟩
  intro free free' size a h
  obtain ⟨l1, s, e, l2, h1, h2, h3, h4, _⟩ := mem_alloc_spec free size a free' h
  exact ⟨l1, s, e, l2, h1, h2, h3, h4⟩

theorem mem_alloc_first_fit_witness :
    ∃ l1 s e l2,
      ([((0 : Int), 9), (20, 24)] : List (Int × Int)) = l1 ++ (s, e) :: l2 ∧
      (∀ r ∈ l1, r.2 - r.1 + 1 < 3) ∧ 3 ≤ e - s + 1 ∧ (0 : Int) = s :=
  mem_alloc_first_fit.2.1 [((0 : Int), 9), (20, 24)] [((3 : Int), 9), (20, 24)]
    3 0 (by decide)

/-- C6 (amended): `mem_write` fails with `OutOfRange` exactly when
`offset + len(bytes) > capacity`; `mem_read`, however, has no bounds check --
it never fails and returns the slice clipped to the block, of length
`min size (capacity - offset)`. -/
theorem mem_write_bounds_read_total :
    (∀ (cap : Nat) (mem : List Nat) (address : Nat) (data : List Nat),
        mem_write cap mem address data = none ↔ cap < address + data.length) ∧
    (∀ (mem : List Nat) (address size : Nat),
        (mem_read mem address size).length = min size (mem.length - address)) := by
  constructor
  · intro cap mem address data
    unfold mem_write
    split <;> simp_all
  · intro mem address size
    simp [mem_read]

/-- C6 counterexample: on a block of capacity 4 holding bytes `[7, 8, 9, 10]`,
reading 10 bytes at offset 2 reaches past the block capacity (2 + 10 > 4) yet
does not fail: it silently returns the two remaining bytes. -/
theorem mem_read_past_capacity_cex :
    mem_read [7, 8, 9, 10] 2 10 = [9, 10] ∧ 4 < 2 + 10 := by
  exact ⟨rfl, by decide⟩

/-! ## SingleMemoryManager lemmas (claims C3, C5) -/

theorem minByTs_cons (k : String) (e : CacheEntry)
    (rest : List (String × CacheEntry)) :
    minByTs ((k, e) :: rest) =
      match minByTs rest with
      | none => some (k, e.timestamp)
      | some (k', t') =>
        if e.timestamp ≤ t' then some (k, e.timestamp) else some (k', t') := rfl

theorem minByTs_eq_none (l : List (String × CacheEntry))
    (h : minByTs l = none) : l = [] := by
  cases l with
  | nil => rfl
  | cons hd rest =>
    obtain ⟨k, e⟩ := hd
    rw [minByTs_cons] at h
    cases hrec : minByTs rest with
    | none =>
      rw [hrec] at h
      cases h
    | some p =>
      obtain ⟨k', t'⟩ := p
      rw [hrec] at h
      dsimp only at h
      split at h <;> cases h

theorem minByTs_spec (l : List (String × CacheEntry)) (k : String) (t : Nat)
    (h : minByTs l = some (k, t)) :
    (∃ e, (k, e) ∈ l ∧ e.timestamp = t) ∧ ∀ p ∈ l, t ≤ p.2.timestamp := by
  induction l generalizing k t with
  | nil => cases h
  | cons hd rest ih =>
    obtain ⟨k0, e0⟩ := hd
    rw [minByTs_cons] at h
    cases hrec : minByTs rest with
    | none =>
      rw [hrec] at h
      simp only [Option.some.injEq, Prod.mk.injEq] at h
      obtain ⟨rfl, rfl⟩ := h
      have hnil : rest = [] := minByTs_eq_none rest hrec
      subst hnil
      refine ⟨⟨e0, by simp, rfl⟩, ?_⟩
      intro p hp
      rcases List.mem_cons.mp hp with h1 | h1
      · subst h1
        exact Nat.le_refl _
      · simp at h1
    | some p =>
      obtain ⟨k', t'⟩ := p
      rw [hrec] at h
      dsimp only at h
      obtain ⟨⟨e', hmem', hts'⟩, hbound'⟩ := ih k' t' hrec
      split at h
      · next hle =>
        simp only [Option.some.injEq, Prod.mk.injEq] at h
        obtain ⟨hk2, ht2⟩ := h
        refine ⟨⟨e0, ?_, ht2⟩, ?_⟩
        · rw [← hk2]
          exact List.mem_cons_self _ _
        · intro q hq
          rcases List.mem_cons.mp hq with h1 | h1
          · subst h1
            show t ≤ e0.timestamp
            omega
          · have := hbound' q h1
            omega
      · next hgt =>
        simp only [Option.some.injEq, Prod.mk.injEq] at h
        obtain ⟨hk2, ht2⟩ := h
        refine ⟨⟨e', ?_, ?_⟩, ?_⟩
        · rw [← hk2]
          exact List.mem_cons_of_mem _ hmem'
        · rw [hts', ht2]
        · intro q hq
          rcases List.mem_cons.mp hq with h1 | h1
          · subst h1
            show t ≤ e0.timestamp
            omega
          · have := hbound' q h1
            omega

theorem read_memory_state (m : MemoryStore) (key : String) :
    (read_memory m key).2 = m := by
  unfold read_memory
  split <;> rfl

theorem evict_memory_fields (m : MemoryStore) :
    (evict_memory m).memory_limit = m.memory_limit ∧
    (evict_memory m).eviction_k = m.eviction_k ∧
    (evict_memory m).clock = m.clock := by
  refine ⟨?_, ?_, ?_⟩ <;>
    (unfold evict_memory evict_lru evict_fifo; repeat' split) <;> rfl

theorem write_memory_at_capacity (m : MemoryStore) (key value : String)
    (h : m.memory_limit ≤ m.store.length) :
    write_memory m key value =
      { evict_memory m with
        store := dictSet (evict_memory m).store key ⟨value, (evict_memory m).clock⟩,
        clock := (evict_memory m).clock + 1 } := by
  simp only [write_memory]
  rw [if_pos h]

theorem write_memory_below_capacity (m : MemoryStore) (key value : String)
    (h : ¬ m.memory_limit ≤ m.store.length) :
    write_memory m key value =
      { m with store := dictSet m.store key ⟨value, m.clock⟩,
               clock := m.clock + 1 } := by
  simp only [write_memory]
  rw [if_neg h]

theorem evict_memory_spec (m : MemoryStore)
    (hpol : m.eviction_k = "LRU" ∨ m.eviction_k = "FIFO")
    (hne : m.store ≠ []) :
    ∃ victim, hasKey m.store victim = true ∧
      (evict_memory m).store = dictDel m.store victim := by
  rcases hpol with hp | hp
  · cases hmin : minByTs m.store with
    | none => exact absurd (minByTs_eq_none _ hmin) hne
    | some p =>
      obtain ⟨k, t⟩ := p
      obtain ⟨⟨e, hmem, _⟩, _⟩ := minByTs_spec _ _ _ hmin
      refine ⟨k, hasKey_of_mem hmem, ?_⟩
      unfold evict_memory
      rw [if_pos hp]
      unfold evict_lru
      rw [hmin]
  · have hlru : ¬ m.eviction_k = "LRU" := by
      rw [hp]
      decide
    cases hst : m.store with
    | nil => exact absurd hst hne
    | cons hd rest =>
      obtain ⟨k, e⟩ := hd
      refine ⟨k, hasKey_of_mem (List.mem_cons_self (k, e) rest), ?_⟩
      unfold evict_memory
      rw [if_neg hlru, if_pos hp]
      unfold evict_fifo
      rw [hst]

theorem write_memory_length (m : MemoryStore) (key value : String)
    (hpol : m.eviction_k = "LRU" ∨ m.eviction_k = "FIFO")
    (hlim : 1 ≤ m.memory_limit)
    (hle : m.store.length ≤ m.memory_limit) :
    (write_memory m key value).store.length ≤ m.memory_limit := by
  by_cases hcap : m.memory_limit ≤ m.store.length
  · have hne : m.store ≠ [] := by
      intro hnil
      rw [hnil] at hcap
      simp at hcap
      omega
    have hpos : 0 < m.store.length := List.length_pos.mpr hne
    obtain ⟨victim, hvk, hvst⟩ := evict_memory_spec m hpol hne
    rw [write_memory_at_capacity m key value hcap]
    show (dictSet (evict_memory m).store key _).length ≤ m.memory_limit
    rw [length_dictSet, hvst, length_dictDel, if_pos hvk]
    split <;> omega
  · rw [write_memory_below_capacity m key value hcap]
    show (dictSet m.store key _).length ≤ m.memory_limit
    rw [length_dictSet]
    split <;> omega

theorem address_request_length (m : MemoryStore) (op : CacheOp)
    (hpol : m.eviction_k = "LRU" ∨ m.eviction_k = "FIFO")
    (hlim : 1 ≤ m.memory_limit)
    (hle : m.store.length ≤ m.memory_limit) :
    (address_request m op).store.length ≤ m.memory_limit := by
  cases op with
  | write k v => exact write_memory_length m k v hpol hlim hle
  | read k =>
    show (read_memory m k).2.store.length ≤ m.memory_limit
    rw [read_memory_state]
    exact hle
  | delete k =>
    show (delete_memory m k).store.length ≤ m.memory_limit
    unfold delete_memory
    split
    · show (dictDel m.store k).length ≤ m.memory_limit
      rw [length_dictDel]
      split <;> omega
    · exact hle
  | update k v =>
    show (update_memory m k v).store.length ≤ m.memory_limit
    unfold update_memory
    split
    · next hk =>
      show (dictSet m.store k _).length ≤ m.memory_limit
      rw [length_dictSet, if_pos hk]
      exact hle
    · exact write_memory_length m k v hpol hlim hle

theorem address_request_fields (m : MemoryStore) (op : CacheOp) :
    (address_request m op).memory_limit = m.memory_limit ∧
    (address_request m op).eviction_k = m.eviction_k := by
  obtain ⟨hl, hk, _⟩ := evict_memory_fields m
  cases op with
  | write k v =>
    show (write_memory m k v).memory_limit = m.memory_limit ∧
      (write_memory m k v).eviction_k = m.eviction_k
    by_cases h : m.memory_limit ≤ m.store.length
    · rw [write_memory_at_capacity m k v h]
      exact ⟨hl, hk⟩
    · rw [write_memory_below_capacity m k v h]
      exact ⟨rfl, rfl⟩
  | read k =>
    show (read_memory m k).2.memory_limit = m.memory_limit ∧
      (read_memory m k).2.eviction_k = m.eviction_k
    rw [read_memory_state]
    exact ⟨rfl, rfl⟩
  | delete k =>
    show (delete_memory m k).memory_limit = m.memory_limit ∧
      (delete_memory m k).eviction_k = m.eviction_k
    unfold delete_memory
    split <;> exact ⟨rfl, rfl⟩
  | update k v =>
    show (update_memory m k v).memory_limit = m.memory_limit ∧
      (update_memory m k v).eviction_k = m.eviction_k
    unfold update_memory
    split
    · exact ⟨rfl, rfl⟩
    · by_cases h : m.memory_limit ≤ m.store.length
      · rw [write_memory_at_capacity m k v h]
        exact ⟨hl, hk⟩
      · rw [write_memory_below_capacity m k v h]
        exact ⟨rfl, rfl⟩

theorem runCache_cons (m : MemoryStore) (op : CacheOp) (ops : List CacheOp) :
    runCache m (op :: ops) = runCache (address_request m op) ops := rfl

theorem runCache_length (m : MemoryStore) (ops : List CacheOp)
    (hpol : m.eviction_k = "LRU" ∨ m.eviction_k = "FIFO")
    (hlim : 1 ≤ m.memory_limit)
    (hle : m.store.length ≤ m.memory_limit) :
    (runCache m ops).store.length ≤ m.memory_limit := by
  induction ops generalizing m with
  | nil => exact hle
  | cons op ops ih =>
    obtain ⟨hl, hk⟩ := address_request_fields m op
    have hstep := address_request_length m op hpol hlim hle
    rw [runCache_cons]
    have := ih (address_request m op) (by rw [hk]; exact hpol)
      (by rw [hl]; exact hlim) (by rw [hl]; exact hstep)
    rw [hl] at this
    exact this

/-- C3 (amended): for a store configured with capacity at least 1 and policy
LRU or FIFO, a write issued when the entry count equals the capacity first
evicts exactly one entry -- the post-eviction store is the old store with one
present key deleted, the victim being the value of the deterministic policy
function -- and the entry count never exceeds the capacity after any sequence
of operations on a fresh store. (The claim as stated fails for the
constructible capacity-0 store, see the counterexample.) -/
theorem store_capacity_bound (limit : Nat) (policy : String)
    (hpol : policy = "LRU" ∨ policy = "FIFO") (hlim : 1 ≤ limit) :
    (∀ (m : MemoryStore) (key value : String),
      m.memory_limit = limit → m.eviction_k = policy →
      m.store.length = limit →
      ∃ victim, hasKey m.store victim = true ∧
        (evict_memory m).store = dictDel m.store victim ∧
        (evict_memory m).store.length + 1 = m.store.length ∧
        (write_memory m key value).store.length ≤ limit) ∧
    (∀ ops : List CacheOp,
      (runCache (initStore limit policy) ops).store.length ≤ limit) := by
  constructor
  · intro m key value hml hmk hlen
    have hpolm : m.eviction_k = "LRU" ∨ m.eviction_k = "FIFO" := by
      rw [hmk]
      exact hpol
    have hne : m.store ≠ [] := by
      intro h
      rw [h] at hlen
      simp at hlen
      omega
    have hpos : 0 < m.store.length := List.length_pos.mpr hne
    obtain ⟨victim, hvk, hvst⟩ := evict_memory_spec m hpolm hne
    refine ⟨victim, hvk, hvst, ?_, ?_⟩
    · rw [hvst, length_dictDel, if_pos hvk]
      omega
    · rw [← hml]
      exact write_memory_length m key value hpolm (by omega) (by omega)
  · intro ops
    exact runCache_length (initStore limit policy) ops hpol hlim (by simp [initStore])

theorem store_capacity_bound_witness :
    (runCache (initStore 1 "LRU")
      [CacheOp.write "a" "x", CacheOp.write "b" "y"]).store.length ≤ 1 :=
  (store_capacity_bound 1 "LRU" (Or.inl rfl) (by decide)).2
    [CacheOp.write "a" "x", CacheOp.write "b" "y"]

/-- C3 counterexample: the claim quantifies over every configured capacity; a
capacity-0 LRU store is constructible, and a write issued at the capacity
limit (0 entries) evicts nothing (the store is empty) and leaves 1 > 0
entries, exceeding the configured capacity. -/
theorem store_capacity_zero_cex :
    (write_memory (initStore 0 "LRU") "a" "x").store.length = 1 ∧
    (0 : Nat) < 1 ∧
    (evict_memory (initStore 0 "LRU")).store = (initStore 0 "LRU").store := by
  exact ⟨rfl, by decide, rfl⟩

/-- C5 (amended): under the LRU policy every write and every update refreshes
the written entry's timestamp to the current clock reading, but a read leaves
the store -- timestamps included -- completely unchanged; the entry evicted by
`evict_lru` is one with the minimum timestamp; and in a capacity-3 LRU store,
inserting keys a, b, c and then d evicts a, leaving exactly b, c, d. -/
theorem lru_eviction (m : MemoryStore) (key value : String) :
    (read_memory m key).2 = m ∧
    dictGet (update_memory m key value).store key = some ⟨value, m.clock⟩ ∧
    (m.eviction_k = "LRU" → m.store ≠ [] →
      ∃ k t, minByTs m.store = some (k, t) ∧
        (∃ e, (k, e) ∈ m.store ∧ e.timestamp = t) ∧
        (∀ p ∈ m.store, t ≤ p.2.timestamp) ∧
        (evict_memory m).store = dictDel m.store k) ∧
    (runCache (initStore 3 "LRU")
        [CacheOp.write "a" "va", CacheOp.write "b" "vb",
         CacheOp.write "c" "vc", CacheOp.write "d" "vd"]).store.map Prod.fst
      = ["b", "c", "d"] := by
  obtain ⟨_, _, hclk⟩ := evict_memory_fields m
  have hwrite : ∀ (mw : MemoryStore) (k v : String),
      dictGet (write_memory mw k v).store k = some ⟨v, mw.clock⟩ := by
    intro mw k v
    by_cases h : mw.memory_limit ≤ mw.store.length
    · rw [write_memory_at_capacity mw k v h]
      show dictGet (dictSet (evict_memory mw).store k ⟨v, (evict_memory mw).clock⟩) k = _
      rw [dictGet_dictSet_self]
      obtain ⟨_, _, hc⟩ := evict_memory_fields mw
      rw [hc]
    · rw [write_memory_below_capacity mw k v h]
      show dictGet (dictSet mw.store k ⟨v, mw.clock⟩) k = _
      rw [dictGet_dictSet_self]
  refine ⟨read_memory_state m key, ?_, ?_, by decide⟩
  · unfold update_memory
    split
    · show dictGet (dictSet m.store key ⟨value, m.clock⟩) key = _
      rw [dictGet_dictSet_self]
    · exact hwrite m key value
  · intro hlru hne
    cases hmin : minByTs m.store with
    | none => exact absurd (minByTs_eq_none _ hmin) hne
    | some p =>
      obtain ⟨k, t⟩ := p
      obtain ⟨hmem, hbound⟩ := minByTs_spec _ _ _ hmin
      refine ⟨k, t, rfl, hmem, hbound, ?_⟩
      unfold evict_memory
      rw [if_pos hlru]
      unfold evict_lru
      rw [hmin]

theorem lru_eviction_witness :
    ∃ k t,
      minByTs [("a", ⟨"x", 5⟩), ("b", ⟨"y", 3⟩)] = some (k, t) ∧
      (∃ e, (k, e) ∈ ([("a", ⟨"x", 5⟩), ("b", ⟨"y", 3⟩)] :
          List (String × CacheEntry)) ∧ e.timestamp = t) ∧
      (∀ p ∈ ([("a", ⟨"x", 5⟩), ("b", ⟨"y", 3⟩)] :
          List (String × CacheEntry)), t ≤ p.2.timestamp) ∧
      (evict_memory
          (⟨2, "LRU", [("a", ⟨"x", 5⟩), ("b", ⟨"y", 3⟩)], 6⟩ : MemoryStore)).store =
        dictDel [("a", ⟨"x", 5⟩), ("b", ⟨"y", 3⟩)] k :=
  (lru_eviction (⟨2, "LRU", [("a", ⟨"x", 5⟩), ("b", ⟨"y", 3⟩)], 6⟩ : MemoryStore)
    "c" "z").2.2.1 rfl (by decide)

/-- C5 counterexample: capacity-2 LRU store; write a, write b, read a,
write c. If reads refreshed the timestamp (as the claim states), a would hold
the newest timestamp and b would be evicted, leaving a and c; the code does
not refresh on read, so a is evicted: the surviving keys are exactly b, c. -/
theorem lru_read_no_refresh_cex :
    (runCache (initStore 2 "LRU")
        [CacheOp.write "a" "va", CacheOp.write "b" "vb",
         CacheOp.read "a", CacheOp.write "c" "vc"]).store.map Prod.fst
      = ["b", "c"] ∧
    hasKey (runCache (initStore 2 "LRU")
        [CacheOp.write "a" "va", CacheOp.write "b" "vb",
         CacheOp.read "a", CacheOp.write "c" "vc"]).store "a" = false := by
  exact ⟨by decide, by decide⟩

/-! ## Dispatch worker lemmas (claims C1, C10) -/

theorem runStorageSyscallStep_error (t1 t2 : Nat) (req : StorageSyscall)
    (e : String) (h : req.handler = Except.error e) :
    runStorageSyscallStep t1 t2 req =
      { req with status := "executing", start_time := some t1 } := by
  simp only [runStorageSyscallStep, applyAction]
  rw [h]

theorem runStorageSyscallStep_ok (t1 t2 : Nat) (req : StorageSyscall)
    (r : String) (h : req.handler = Except.ok r) :
    runStorageSyscallStep t1 t2 req =
      { req with status := "done", start_time := some t1, end_time := some t2,
                 response := some r, event_set := true } := by
  simp only [runStorageSyscallStep, applyAction, successActions]
  rw [h]
  rfl

theorem runStorageLoop_length (t : Nat) (q : List StorageSyscall) :
    (runStorageLoop t q).length = q.length := by
  induction q generalizing t with
  | nil => rfl
  | cons hd rest ih => simp [runStorageLoop, ih]

theorem runStorageLoop_getElem (t : Nat) (q : List StorageSyscall) (i : Nat)
    (req : StorageSyscall) (h : q[i]? = some req) :
    ∃ u, (runStorageLoop t q)[i]? =
      some (runStorageSyscallStep u (u + 1) req) := by
  induction q generalizing t i with
  | nil => simp at h
  | cons hd rest ih =>
    cases i with
    | zero =>
      simp only [List.getElem?_cons_zero, Option.some.injEq] at h
      subst h
      refine ⟨t, ?_⟩
      show (runStorageSyscallStep t (t + 1) hd :: runStorageLoop (t + 2) rest)[0]? = _
      rw [List.getElem?_cons_zero]
    | succ n =>
      simp only [List.getElem?_cons_succ] at h
      obtain ⟨u, hu⟩ := ih (t + 2) n h
      refine ⟨u, ?_⟩
      show (runStorageSyscallStep t (t + 1) hd :: runStorageLoop (t + 2) rest)[n + 1]? = _
      rw [List.getElem?_cons_succ]
      exact hu

/-- C1 (amended): when a dequeued storage request's manager call raises, the
worker's `except Exception` arm swallows the exception, so the loop continues
and every queued request is still dequeued and processed (a request whose
handler succeeds ends with status "done", its response and its completion
event set); but the failing request is NOT converted into a FAILED request:
it is left with status "executing", and its error field, event flag, response
and end time are exactly as they were -- no error is recorded anywhere. -/
theorem storage_worker_error_containment (t : Nat) (q : List StorageSyscall)
    (i : Nat) (req : StorageSyscall) (h : q[i]? = some req) :
    (runStorageLoop t q).length = q.length ∧
    ∃ out, (runStorageLoop t q)[i]? = some out ∧
      (∀ e, req.handler = Except.error e →
        out.status = "executing" ∧ out.error = req.error ∧
        out.event_set = req.event_set ∧ out.response = req.response ∧
        out.end_time = req.end_time) ∧
      (∀ r, req.handler = Except.ok r →
        out.status = "done" ∧ out.response = some r ∧
        out.event_set = true) := by
  obtain ⟨u, hu⟩ := runStorageLoop_getElem t q i req h
  refine ⟨runStorageLoop_length t q, _, hu, ?_, ?_⟩
  · intro e he
    rw [runStorageSyscallStep_error u (u + 1) req e he]
    exact ⟨rfl, rfl, rfl, rfl, rfl⟩
  · intro r hr
    rw [runStorageSyscallStep_ok u (u + 1) req r hr]
    exact ⟨rfl, rfl, rfl⟩

theorem storage_worker_error_containment_witness :
    (runStorageLoop 0 [reqRaising, reqSucceeding]).length =
      [reqRaising, reqSucceeding].length ∧
    ∃ out, (runStorageLoop 0 [reqRaising, reqSucceeding])[0]? = some out ∧
      (∀ e, reqRaising.handler = Except.error e →
        out.status = "executing" ∧ out.error = reqRaising.error ∧
        out.event_set = reqRaising.event_set ∧
        out.response = reqRaising.response ∧
        out.end_time = reqRaising.end_time) ∧
      (∀ r, reqRaising.handler = Except.ok r →
        out.status = "done" ∧ out.response = some r ∧
        out.event_set = true) :=
  storage_worker_error_containment 0 [reqRaising, reqSucceeding] 0 reqRaising rfl

/-- C1 counterexample: a two-request storage queue whose first handler raises.
The loop does continue -- the second request completes with status "done" and
its response recorded -- but the first request ends the run with status
"executing" (there is no FAILED transition in the worker) and its error field
is still empty (`none`), contradicting the claimed FAILED-with-non-empty-error
conversion. -/
theorem storage_worker_no_failed_cex :
    (runStorageLoop 0 [reqRaising, reqSucceeding]).map
        (fun r => (r.status, r.error)) =
      [("executing", none), ("done", none)] ∧
    (runStorageLoop 0 [reqRaising, reqSucceeding]).map
        (fun r => r.response) = [none, some "stored"] := by
  exact ⟨rfl, rfl⟩

/-- C10: in every successful dispatch the completion event is set before the
status is set to "done" and before the end time is recorded: in the worker's
setter sequence the event comes at position 3, strictly before
`set_status "done"` (position 4) and `set_end_time` (position 5); at the
instant the event is set (after the first four actions) the response is
already filled in while the status is still "executing" and the end time is
still unset; a successful iteration runs exactly this sequence and ends with
status "done" and the end time recorded. -/
theorem event_set_before_done (req : StorageSyscall) (r : String)
    (t1 t2 : Nat) (hend : req.end_time = none) :
    (successActions t1 t2 r)[3]? = some DispatchAction.event_set ∧
    (successActions t1 t2 r)[4]? = some (DispatchAction.set_status "done") ∧
    (successActions t1 t2 r)[5]? = some (DispatchAction.set_end_time t2) ∧
    (((successActions t1 t2 r).take 4).foldl applyAction req).event_set = true ∧
    (((successActions t1 t2 r).take 4).foldl applyAction req).status =
      "executing" ∧
    (((successActions t1 t2 r).take 4).foldl applyAction req).end_time = none ∧
    (((successActions t1 t2 r).take 4).foldl applyAction req).response =
      some r ∧
    (req.handler = Except.ok r →
      runStorageSyscallStep t1 t2 req =
        (successActions t1 t2 r).foldl applyAction req ∧
      (runStorageSyscallStep t1 t2 req).status = "done" ∧
      (runStorageSyscallStep t1 t2 req).end_time = some t2 ∧
      (runStorageSyscallStep t1 t2 req).event_set = true ∧
      (runStorageSyscallStep t1 t2 req).response = some r) := by
  refine ⟨rfl, rfl, rfl, rfl, rfl, ?_, rfl, ?_⟩
  · show req.end_time = none
    exact hend
  · intro hok
    rw [runStorageSyscallStep_ok t1 t2 req r hok]
    exact ⟨rfl, rfl, rfl, rfl, rfl⟩

theorem event_set_before_done_witness :
    (((successActions 0 1 "stored").take 4).foldl applyAction
        reqSucceeding).event_set = true ∧
    (((successActions 0 1 "stored").take 4).foldl applyAction
        reqSucceeding).status = "executing" ∧
    (((successActions 0 1 "stored").take 4).foldl applyAction
        reqSucceeding).end_time = none ∧
    (runStorageSyscallStep 0 1 reqSucceeding).status = "done" :=
  ⟨(event_set_before_done reqSucceeding "stored" 0 1 rfl).2.2.2.1,
   (event_set_before_done reqSucceeding "stored" 0 1 rfl).2.2.2.2.1,
   (event_set_before_done reqSucceeding "stored" 0 1 rfl).2.2.2.2.2.1,
   ((event_set_before_done reqSucceeding "stored" 0 1 rfl).2.2.2.2.2.2.2
     rfl).2.1⟩

/-! ## Scheduler start (claim C9) -/

/-- C9 (amended): `start()` on a fresh scheduler launches exactly one worker
per resource kind (four workers, all four threads started) and sets the
active flag; a second `start()` on the same scheduler is indeed rejected
rather than launching duplicate workers (it launches zero), but the rejection
is the RuntimeError raised by `Thread.start` on an already-started thread --
the scheduler defines no AlreadyRunning guard -- and the scheduler state is
left unchanged apart from the already-true active flag. -/
theorem scheduler_start_twice :
    (schedulerStart schedulerInit).1 = none ∧
    (schedulerStart schedulerInit).2.2 = 4 ∧
    (schedulerStart schedulerInit).2.1.active = true ∧
    (schedulerStart schedulerInit).2.1.request_processors =
      [⟨true⟩, ⟨true⟩, ⟨true⟩, ⟨true⟩] ∧
    (schedulerStart (schedulerStart schedulerInit).2.1).1 =
      some "threads can only be started once" ∧
    (schedulerStart (schedulerStart schedulerInit).2.1).2.2 = 0 ∧
    (schedulerStart (schedulerStart schedulerInit).2.1).2.1 =
      (schedulerStart schedulerInit).2.1 := by
  exact ⟨rfl, rfl, rfl, rfl, rfl, rfl, rfl⟩

/-- C9 counterexample: the second `start()` does fail, but with the thread
layer's RuntimeError ("threads can only be started once"), which is not an
AlreadyRunning error -- no such error exists anywhere in the scheduler code
(`schedulerStart` contains no already-running check at all). -/
theorem scheduler_start_no_already_running_cex :
    (schedulerStart (schedulerStart schedulerInit).2.1).1 =
      some "threads can only be started once" ∧
    some "threads can only be started once" ≠ some "AlreadyRunning" := by
  exact ⟨rfl, by decide⟩

/-! ## UniformedMemoryManager lemmas (claims C7, C8) -/

/-- C7 (code bug): `mem_alloc(7, 10)` on a fresh two-block pool succeeds and
stores the allocation record flat under agent id 7 with the string keys
"memory_block_id", "address" and "size"; `mem_clear(7)` finds it and
succeeds; but `mem_read(7, round_id)` indexes that flat record with the
integer round id and therefore raises KeyError for every round id, instead of
finding the recorded block, offset and size. -/
theorem mem_read_after_alloc_keyerror :
    (umm_mem_alloc (ummInit 1024 2) 7 10).1 = Except.ok 0 ∧
    dictGet (umm_mem_alloc (ummInit 1024 2) 7 10).2.aid_to_memory 7 =
      some [(PyKey.s "memory_block_id", 0), (PyKey.s "address", 0),
            (PyKey.s "size", 10)] ∧
    (∀ round_id : Int,
      (umm_mem_read (umm_mem_alloc (ummInit 1024 2) 7 10).2 7 round_id).1 =
        Except.error "KeyError: round_id") ∧
    (umm_mem_clear (umm_mem_alloc (ummInit 1024 2) 7 10).2 7).1 =
      Except.ok () := by
  refine ⟨rfl, rfl, ?_, rfl⟩
  intro round_id
  unfold umm_mem_read
  have hget : dictGet (umm_mem_alloc (ummInit 1024 2) 7 10).2.aid_to_memory 7 =
      some [(PyKey.s "memory_block_id", 0), (PyKey.s "address", 0),
            (PyKey.s "size", 10)] := rfl
  rw [hget]
  simp [dictGet]

/-- C8 counterexample: in a two-block pool, agent 7 already holds an
allocation in block 0, yet a second `mem_alloc(7, 10)` does not fail with
AllocationConflict: it succeeds (returning offset 0 in block 1), overwrites
the agent's allocation record with block 1, and empties the free pool --
block 0 is never returned to it. -/
theorem second_alloc_no_conflict_cex :
    dictGet (umm_mem_alloc (ummInit 1024 2) 7 10).2.aid_to_memory 7 =
      some [(PyKey.s "memory_block_id", 0), (PyKey.s "address", 0),
            (PyKey.s "size", 10)] ∧
    (umm_mem_alloc (umm_mem_alloc (ummInit 1024 2) 7 10).2 7 10).1 =
      Except.ok 0 ∧
    dictGet (umm_mem_alloc (umm_mem_alloc (ummInit 1024 2) 7 10).2 7
        10).2.aid_to_memory 7 =
      some [(PyKey.s "memory_block_id", 1), (PyKey.s "address", 0),
            (PyKey.s "size", 10)] ∧
    (umm_mem_alloc (umm_mem_alloc (ummInit 1024 2) 7 10).2 7
        10).2.free_memory_blocks = [] := by
  exact ⟨rfl, rfl, rfl, rfl⟩

theorem heappop_some (h : List Int) (m : Int) (rest : List Int)
    (hpop : heappop h = some (m, rest)) :
    h.min? = some m ∧ rest = h.erase m := by
  unfold heappop at hpop
  split at hpop
  · cases hpop
  · rename_i m2 hmin
    simp only [Option.some.injEq, Prod.mk.injEq] at hpop
    obtain ⟨h1, h2⟩ := hpop
    subst h1
    exact ⟨hmin, h2.symm⟩

theorem umm_mem_alloc_ok (st : UMMState) (agent_id size addr : Int)
    (hok : (umm_mem_alloc st agent_id size).1 = Except.ok addr) :
    ∃ bid restHeap blk',
      heappop st.free_memory_blocks = some (bid, restHeap) ∧
      mem_alloc (st.memory_blocks.getD bid.toNat []) size =
        some (addr, blk') ∧
      umm_mem_alloc st agent_id size =
        (Except.ok addr,
          { st with
            memory_blocks := st.memory_blocks.set bid.toNat blk',
            free_memory_blocks := restHeap,
            aid_to_memory := dictSet st.aid_to_memory agent_id
              [(PyKey.s "memory_block_id", bid), (PyKey.s "address", addr),
               (PyKey.s "size", size)] }) := by
  unfold umm_mem_alloc at hok ⊢
  split at hok
  · simp at hok
  · rename_i bid restHeap hpop
    split at hok
    · simp at hok
    · rename_i address blk' halloc
      have haddr : address = addr := by simpa using hok
      subst haddr
      refine ⟨bid, restHeap, blk', hpop, halloc, ?_⟩
      simp only [hpop]

theorem umm_mem_alloc_eq (st : UMMState) (agent_id size : Int) :
    umm_mem_alloc st agent_id size =
      match heappop st.free_memory_blocks with
      | none => (Except.error "No free memory blocks available.", st)
      | some (memory_block_id, restHeap) =>
        match mem_alloc (st.memory_blocks.getD memory_block_id.toNat []) size with
        | none =>
          (Except.error "No sufficient memory available.",
            { st with free_memory_blocks := restHeap })
        | some (address, blk') =>
          (Except.ok address,
            { st with
              memory_blocks := st.memory_blocks.set memory_block_id.toNat blk',
              free_memory_blocks := restHeap,
              aid_to_memory := dictSet st.aid_to_memory agent_id
                [(PyKey.s "memory_block_id", memory_block_id),
                 (PyKey.s "address", address),
                 (PyKey.s "size", size)] }) := rfl

/-- C8 (amended): `mem_alloc` performs no duplicate-allocation check: for an
agent that already holds an allocation record naming block `b` (no longer in
the free heap), a second call never raises AllocationConflict and never
consults the existing record. With an empty free-block heap it raises
MemoryError ("No free memory blocks available.") leaving the state unchanged.
Otherwise it pops the smallest free block id: if that block has a single free
range of length at least `size`, the call succeeds, overwrites the agent's
record with the new block id, offset and size, and the previously held block
id `b` is still not in the free pool (it leaks); if the popped block has no
such range, the call raises MemoryError ("No sufficient memory available.")
with the pop not undone and the agent's record unchanged. -/
theorem second_alloc_overwrites (st : UMMState) (agent_id size b : Int)
    (rec0 : List (PyKey × Int))
    (hrec : dictGet st.aid_to_memory agent_id = some rec0)
    (_hb : dictGet rec0 (PyKey.s "memory_block_id") = some b)
    (hbfree : b ∉ st.free_memory_blocks) :
    (st.free_memory_blocks = [] →
      umm_mem_alloc st agent_id size =
        (Except.error "No free memory blocks available.", st)) ∧
    (∀ bid restHeap, heappop st.free_memory_blocks = some (bid, restHeap) →
      ((¬ ∀ r ∈ st.memory_blocks.getD bid.toNat [], r.2 - r.1 + 1 < size) →
        ∃ addr blk',
          mem_alloc (st.memory_blocks.getD bid.toNat []) size =
            some (addr, blk') ∧
          umm_mem_alloc st agent_id size =
            (Except.ok addr,
              { st with
                memory_blocks := st.memory_blocks.set bid.toNat blk',
                free_memory_blocks := restHeap,
                aid_to_memory := dictSet st.aid_to_memory agent_id
                  [(PyKey.s "memory_block_id", bid),
                   (PyKey.s "address", addr), (PyKey.s "size", size)] }) ∧
          dictGet (umm_mem_alloc st agent_id size).2.aid_to_memory agent_id =
            some [(PyKey.s "memory_block_id", bid), (PyKey.s "address", addr),
                  (PyKey.s "size", size)] ∧
          bid ∈ st.free_memory_blocks ∧
          b ∉ (umm_mem_alloc st agent_id size).2.free_memory_blocks) ∧
      ((∀ r ∈ st.memory_blocks.getD bid.toNat [], r.2 - r.1 + 1 < size) →
        umm_mem_alloc st agent_id size =
          (Except.error "No sufficient memory available.",
            { st with free_memory_blocks := restHeap }) ∧
        dictGet (umm_mem_alloc st agent_id size).2.aid_to_memory agent_id =
          some rec0)) := by
  refine ⟨?_, ?_⟩
  · intro hnil
    unfold umm_mem_alloc heappop
    rw [hnil]
    rfl
  · intro bid restHeap hpop
    obtain ⟨hmin, hrest⟩ := heappop_some _ _ _ hpop
    constructor
    · intro hfit
      have hne : mem_alloc (st.memory_blocks.getD bid.toNat []) size ≠ none :=
        fun hn => absurd ((mem_alloc_none_iff _ _).mp hn) hfit
      obtain ⟨p, halloc⟩ := Option.ne_none_iff_exists'.mp hne
      obtain ⟨addr, blk'⟩ := p
      have heqn : umm_mem_alloc st agent_id size =
          (Except.ok addr,
            { st with
              memory_blocks := st.memory_blocks.set bid.toNat blk',
              free_memory_blocks := restHeap,
              aid_to_memory := dictSet st.aid_to_memory agent_id
                [(PyKey.s "memory_block_id", bid),
                 (PyKey.s "address", addr), (PyKey.s "size", size)] }) := by
        rw [umm_mem_alloc_eq]
        simp only [hpop]
        simp only [halloc]
      refine ⟨addr, blk', halloc, heqn, ?_, ?_, ?_⟩
      · rw [heqn]
        exact dictGet_dictSet_self _ _ _
      · exact List.min?_mem (fun x y => Int.min_def x y ▸ by split <;> simp) hmin
      · rw [heqn]
        show b ∉ restHeap
        rw [hrest]
        intro hmem2
        exact hbfree (List.mem_of_mem_erase hmem2)
    · intro hall
      have hnone : mem_alloc (st.memory_blocks.getD bid.toNat []) size = none :=
        (mem_alloc_none_iff _ _).mpr hall
      have heqn : umm_mem_alloc st agent_id size =
          (Except.error "No sufficient memory available.",
            { st with free_memory_blocks := restHeap }) := by
        rw [umm_mem_alloc_eq]
        simp only [hpop]
        simp only [hnone]
      refine ⟨heqn, ?_⟩
      rw [heqn]
      exact hrec

theorem second_alloc_overwrites_witness :
    ∃ addr blk',
      mem_alloc (ummAfterFirst.memory_blocks.getD (1 : Int).toNat []) 10 =
        some (addr, blk') ∧
      umm_mem_alloc ummAfterFirst 7 10 =
        (Except.ok addr,
          { ummAfterFirst with
            memory_blocks :=
              ummAfterFirst.memory_blocks.set (1 : Int).toNat blk',
            free_memory_blocks := [],
            aid_to_memory := dictSet ummAfterFirst.aid_to_memory 7
              [(PyKey.s "memory_block_id", 1),
               (PyKey.s "address", addr), (PyKey.s "size", 10)] }) ∧
      dictGet (umm_mem_alloc ummAfterFirst 7 10).2.aid_to_memory 7 =
        some [(PyKey.s "memory_block_id", 1), (PyKey.s "address", addr),
              (PyKey.s "size", 10)] ∧
      (1 : Int) ∈ ummAfterFirst.free_memory_blocks ∧
      (0 : Int) ∉ (umm_mem_alloc ummAfterFirst 7 10).2.free_memory_blocks :=
  (((second_alloc_overwrites ummAfterFirst 7 10 0
      [(PyKey.s "memory_block_id", 0), (PyKey.s "address", 0),
       (PyKey.s "size", 10)] rfl rfl (by decide)).2
    1 [] rfl).1) (by decide)

/-! ## Block free-list invariant (claim C2) -/

theorem sumFree_nil : sumFree [] = 0 := rfl

theorem sumAlloc_nil : sumAlloc [] = 0 := rfl

theorem sumFree_pair_cons (x y : Int) (l : List (Int × Int)) :
    sumFree ((x, y) :: l) = (y - x + 1) + sumFree l := by
  simp [sumFree]

theorem sumAlloc_pair_cons (x y : Int) (l : List (Int × Int)) :
    sumAlloc ((x, y) :: l) = y + sumAlloc l := by
  simp [sumAlloc]

theorem sumFree_append (xs ys : List (Int × Int)) :
    sumFree (xs ++ ys) = sumFree xs + sumFree ys := by
  simp [sumFree]

theorem stepAlloc_inv (cap size a : Int) (free free' alloc : List (Int × Int))
    (hbounds : ∀ r ∈ free, 0 ≤ r.1 ∧ r.1 ≤ r.2 ∧ r.2 < cap)
    (hpair : free.Pairwise (fun x y => x.2 < y.1))
    (habounds : ∀ r ∈ alloc, 1 ≤ r.2 ∧ 0 ≤ r.1 ∧ r.1 + r.2 ≤ cap)
    (hapair : alloc.Pairwise (fun x y => x.1 + x.2 ≤ y.1 ∨ y.1 + y.2 ≤ x.1))
    (hdisj : ∀ f ∈ free, ∀ x ∈ alloc, f.2 < x.1 ∨ x.1 + x.2 ≤ f.1)
    (hsum : sumFree free + sumAlloc alloc = cap)
    (hsize : 1 ≤ size)
    (halloc : mem_alloc free size = some (a, free')) :
    BlockInv cap ⟨free', (a, size) :: alloc⟩ := by
  obtain ⟨l1, s, e, l2, hfree, hsmall, hfit, ha, hshape⟩ :=
    mem_alloc_spec free size a free' halloc
  have ha' : s = a := ha.symm
  subst ha'
  subst hfree
  rw [List.pairwise_append] at hpair
  obtain ⟨hp1, hp2c, hpcross⟩ := hpair
  rw [List.pairwise_cons] at hp2c
  obtain ⟨hse_l2, hp2⟩ := hp2c
  have hwf_se := hbounds (s, e) (by simp)
  have hs0 : 0 ≤ s := hwf_se.1
  have hse : s ≤ e := hwf_se.2.1
  have hec : e < cap := hwf_se.2.2
  have hdisj_se : ∀ x ∈ alloc, e < x.1 ∨ x.1 + x.2 ≤ s :=
    fun x hx => hdisj (s, e) (by simp) x hx
  rw [sumFree_append, sumFree_pair_cons] at hsum
  rcases hshape with ⟨heq, rfl⟩ | ⟨hne, rfl⟩
  · -- the found range is consumed whole: free' = l1 ++ l2
    have hB : ∀ r ∈ l1 ++ l2, 0 ≤ r.1 ∧ r.1 ≤ r.2 ∧ r.2 < cap := by
      intro r hr
      rcases List.mem_append.mp hr with h | h
      · exact hbounds r (List.mem_append_left _ h)
      · exact hbounds r (List.mem_append_right _ (List.mem_cons_of_mem _ h))
    have hP : (l1 ++ l2).Pairwise (fun x y => x.2 < y.1) := by
      rw [List.pairwise_append]
      exact ⟨hp1, hp2, fun x hx y hy => hpcross x hx y (List.mem_cons_of_mem _ hy)⟩
    have hAB : ∀ r ∈ (s, size) :: alloc, 1 ≤ r.2 ∧ 0 ≤ r.1 ∧ r.1 + r.2 ≤ cap := by
      intro r hr
      rcases List.mem_cons.mp hr with h | h
      · subst h
        exact ⟨hsize, hs0, show s + size ≤ cap by omega⟩
      · exact habounds r h
    have hAP : ((s, size) :: alloc).Pairwise
        (fun x y => x.1 + x.2 ≤ y.1 ∨ y.1 + y.2 ≤ x.1) := by
      rw [List.pairwise_cons]
      refine ⟨?_, hapair⟩
      intro x hx
      rcases hdisj_se x hx with h | h
      · exact Or.inl (show s + size ≤ x.1 by omega)
      · exact Or.inr (show x.1 + x.2 ≤ s by omega)
    have hD : ∀ f ∈ l1 ++ l2, ∀ x ∈ (s, size) :: alloc,
        f.2 < x.1 ∨ x.1 + x.2 ≤ f.1 := by
      intro f hf x hx
      rcases List.mem_cons.mp hx with hx1 | hx2
      · subst hx1
        rcases List.mem_append.mp hf with h | h
        · have h2 : f.2 < s := hpcross f h (s, e) (List.mem_cons_self _ _)
          exact Or.inl h2
        · have h2 : e < f.1 := hse_l2 f h
          exact Or.inr (show s + size ≤ f.1 by omega)
      · rcases List.mem_append.mp hf with h | h
        · exact hdisj f (List.mem_append_left _ h) x hx2
        · exact hdisj f (List.mem_append_right _ (List.mem_cons_of_mem _ h)) x hx2
    have hS : sumFree (l1 ++ l2) + sumAlloc ((s, size) :: alloc) = cap := by
      rw [sumFree_append, sumAlloc_pair_cons]
      omega
    exact ⟨⟨hB, hP⟩, ⟨hAB, hAP⟩, hD, hS⟩
  · -- the found range is split: free' = l1 ++ (s + size, e) :: l2
    have hlt : s + size ≤ e := by omega
    have hB : ∀ r ∈ l1 ++ (s + size, e) :: l2, 0 ≤ r.1 ∧ r.1 ≤ r.2 ∧ r.2 < cap := by
      intro r hr
      rcases List.mem_append.mp hr with h | h
      · exact hbounds r (List.mem_append_left _ h)
      · rcases List.mem_cons.mp h with h1 | h2
        · subst h1
          exact ⟨show (0 : Int) ≤ s + size by omega, show s + size ≤ e from hlt,
                 show e < cap from hec⟩
        · exact hbounds r (List.mem_append_right _ (List.mem_cons_of_mem _ h2))
    have hP : (l1 ++ (s + size, e) :: l2).Pairwise (fun x y => x.2 < y.1) := by
      rw [List.pairwise_append]
      refine ⟨hp1, ?_, ?_⟩
      · rw [List.pairwise_cons]
        refine ⟨?_, hp2⟩
        intro y hy
        exact show e < y.1 from hse_l2 y hy
      · intro x hx y hy
        rcases List.mem_cons.mp hy with h1 | h2
        · subst h1
          have h2 : x.2 < s := hpcross x hx (s, e) (List.mem_cons_self _ _)
          exact show x.2 < s + size by omega
        · exact hpcross x hx y (List.mem_cons_of_mem _ h2)
    have hAB : ∀ r ∈ (s, size) :: alloc, 1 ≤ r.2 ∧ 0 ≤ r.1 ∧ r.1 + r.2 ≤ cap := by
      intro r hr
      rcases List.mem_cons.mp hr with h | h
      · subst h
        exact ⟨hsize, hs0, show s + size ≤ cap by omega⟩
      · exact habounds r h
    have hAP : ((s, size) :: alloc).Pairwise
        (fun x y => x.1 + x.2 ≤ y.1 ∨ y.1 + y.2 ≤ x.1) := by
      rw [List.pairwise_cons]
      refine ⟨?_, hapair⟩
      intro x hx
      rcases hdisj_se x hx with h | h
      · exact Or.inl (show s + size ≤ x.1 by omega)
      · exact Or.inr (show x.1 + x.2 ≤ s by omega)
    have hD : ∀ f ∈ l1 ++ (s + size, e) :: l2, ∀ x ∈ (s, size) :: alloc,
        f.2 < x.1 ∨ x.1 + x.2 ≤ f.1 := by
      intro f hf x hx
      rcases List.mem_cons.mp hx with hx1 | hx2
      · subst hx1
        rcases List.mem_append.mp hf with h | h
        · have h2 : f.2 < s := hpcross f h (s, e) (List.mem_cons_self _ _)
          exact Or.inl h2
        · rcases List.mem_cons.mp h with h1 | h2
          · subst h1
            exact Or.inr (show s + size ≤ s + size from le_refl _)
          · have h3 : e < f.1 := hse_l2 f h2
            exact Or.inr (show s + size ≤ f.1 by omega)
      · rcases List.mem_append.mp hf with h | h
        · exact hdisj f (List.mem_append_left _ h) x hx2
        · rcases List.mem_cons.mp h with h1 | h2
          · subst h1
            rcases hdisj_se x hx2 with h3 | h3
            · exact Or.inl (show e < x.1 from h3)
            · exact Or.inr (show x.1 + x.2 ≤ s + size by omega)
          · exact hdisj f (List.mem_append_right _ (List.mem_cons_of_mem _ h2)) x hx2
    have hS : sumFree (l1 ++ (s + size, e) :: l2) +
        sumAlloc ((s, size) :: alloc) = cap := by
      rw [sumFree_append, sumFree_pair_cons, sumAlloc_pair_cons]
      omega
    exact ⟨⟨hB, hP⟩, ⟨hAB, hAP⟩, hD, hS⟩

theorem sorted_disjoint_pairwise (l : List (Int × Int))
    (hws : ∀ r ∈ l, r.1 ≤ r.2)
    (hsorted : l.Pairwise tupLe)
    (hdisj : l.Pairwise (fun x y => x.2 < y.1 ∨ y.2 < x.1)) :
    l.Pairwise (fun x y => x.2 < y.1) := by
  refine (hsorted.and hdisj).imp_of_mem ?_
  intro x y hx hy hxy
  obtain ⟨hle, hd⟩ := hxy
  have hx1 : x.1 ≤ x.2 := hws x hx
  have hy1 : y.1 ≤ y.2 := hws y hy
  rcases hle with h | ⟨h1, h2⟩ <;> rcases hd with h3 | h3 <;> omega

theorem removeAlloc_sublist (l : List (Int × Int)) (x : Int × Int) :
    (removeAlloc l x).Sublist l := by
  induction l with
  | nil => exact List.Sublist.refl _
  | cons r rest ih =>
    unfold removeAlloc
    split
    · exact (List.Sublist.refl rest).cons r
    · exact ih.cons₂ r

theorem removeAlloc_perm (l : List (Int × Int)) (x : Int × Int) (hx : x ∈ l) :
    l.Perm (x :: removeAlloc l x) := by
  induction l with
  | nil => simp at hx
  | cons r rest ih =>
    unfold removeAlloc
    split
    · next heq =>
      subst heq
      exact List.Perm.refl _
    · next hne =>
      rcases List.mem_cons.mp hx with h | h
      · exact absurd h.symm hne
      · exact ((ih h).cons r).trans (List.Perm.swap x r _)

theorem stepClear_inv (cap start size : Int) (free alloc : List (Int × Int))
    (hbounds : ∀ r ∈ free, 0 ≤ r.1 ∧ r.1 ≤ r.2 ∧ r.2 < cap)
    (hpair : free.Pairwise (fun x y => x.2 < y.1))
    (habounds : ∀ r ∈ alloc, 1 ≤ r.2 ∧ 0 ≤ r.1 ∧ r.1 + r.2 ≤ cap)
    (hapair : alloc.Pairwise (fun x y => x.1 + x.2 ≤ y.1 ∨ y.1 + y.2 ≤ x.1))
    (hdisj : ∀ f ∈ free, ∀ x ∈ alloc, f.2 < x.1 ∨ x.1 + x.2 ≤ f.1)
    (hsum : sumFree free + sumAlloc alloc = cap)
    (hmem : (start, size) ∈ alloc) :
    BlockInv cap ⟨mem_clear free start size, removeAlloc alloc (start, size)⟩ := by
  have hr := habounds (start, size) hmem
  have hsize : 1 ≤ size := hr.1
  have hst0 : 0 ≤ start := hr.2.1
  have hcap : start + size ≤ cap := hr.2.2
  have hperm : (mem_clear free start size).Perm
      (free ++ [(start, start + size - 1)]) :=
    List.perm_insertionSort tupLe _
  have hmemL : ∀ r ∈ mem_clear free start size,
      r ∈ free ∨ r = (start, start + size - 1) := by
    intro r hr2
    have h := hperm.mem_iff.mp hr2
    rcases List.mem_append.mp h with h1 | h1
    · exact Or.inl h1
    · right
      simpa using h1
  have hB : ∀ r ∈ mem_clear free start size,
      0 ≤ r.1 ∧ r.1 ≤ r.2 ∧ r.2 < cap := by
    intro r hr2
    rcases hmemL r hr2 with h | h
    · exact hbounds r h
    · subst h
      exact ⟨show (0 : Int) ≤ start from hst0,
             show start ≤ start + size - 1 by omega,
             show start + size - 1 < cap by omega⟩
  have hDapp : (free ++ [(start, start + size - 1)]).Pairwise
      (fun x y => x.2 < y.1 ∨ y.2 < x.1) := by
    rw [List.pairwise_append]
    refine ⟨hpair.imp (fun h => Or.inl h), List.pairwise_singleton _ _, ?_⟩
    intro f hf y hy
    rw [List.mem_singleton] at hy
    subst hy
    rcases hdisj f hf (start, size) hmem with h | h
    · exact Or.inl (show f.2 < start from h)
    · have h2 : start + size ≤ f.1 := h
      exact Or.inr (show start + size - 1 < f.1 by omega)
  have hDL : (mem_clear free start size).Pairwise
      (fun x y => x.2 < y.1 ∨ y.2 < x.1) :=
    hDapp.perm hperm.symm (fun h => h.symm)
  have hsorted : (mem_clear free start size).Pairwise tupLe :=
    List.sorted_insertionSort tupLe _
  have hP : (mem_clear free start size).Pairwise (fun x y => x.2 < y.1) :=
    sorted_disjoint_pairwise _ (fun r hr2 => (hB r hr2).2.1) hsorted hDL
  have hpermA : alloc.Perm ((start, size) :: removeAlloc alloc (start, size)) :=
    removeAlloc_perm alloc (start, size) hmem
  have hAB : ∀ r ∈ removeAlloc alloc (start, size),
      1 ≤ r.2 ∧ 0 ≤ r.1 ∧ r.1 + r.2 ≤ cap :=
    fun r hr2 => habounds r ((removeAlloc_sublist alloc (start, size)).mem hr2)
  have hAP : (removeAlloc alloc (start, size)).Pairwise
      (fun x y => x.1 + x.2 ≤ y.1 ∨ y.1 + y.2 ≤ x.1) :=
    List.Pairwise.sublist (removeAlloc_sublist _ _) hapair
  have hheadA : ∀ x ∈ removeAlloc alloc (start, size),
      start + size ≤ x.1 ∨ x.1 + x.2 ≤ start := by
    have hpa2 : ((start, size) :: removeAlloc alloc (start, size)).Pairwise
        (fun x y => x.1 + x.2 ≤ y.1 ∨ y.1 + y.2 ≤ x.1) :=
      hapair.perm hpermA (fun h => h.symm)
    rw [List.pairwise_cons] at hpa2
    intro x hx
    rcases hpa2.1 x hx with h | h
    · exact Or.inl h
    · exact Or.inr h
  have hD : ∀ f ∈ mem_clear free start size, ∀ x ∈ removeAlloc alloc (start, size),
      f.2 < x.1 ∨ x.1 + x.2 ≤ f.1 := by
    intro f hf x hx
    rcases hmemL f hf with h | h
    · exact hdisj f h x ((removeAlloc_sublist alloc (start, size)).mem hx)
    · subst h
      rcases hheadA x hx with h2 | h2
      · exact Or.inl (show start + size - 1 < x.1 by omega)
      · exact Or.inr (show x.1 + x.2 ≤ start from h2)
  have hsum1 : sumFree (mem_clear free start size) = sumFree free + size := by
    have h1 : sumFree (mem_clear free start size) =
        sumFree (free ++ [(start, start + size - 1)]) := by
      unfold sumFree
      exact List.Perm.sum_eq (List.Perm.map _ hperm)
    rw [h1, sumFree_append, sumFree_pair_cons, sumFree_nil]
    omega
  have hsum2 : sumAlloc alloc = size + sumAlloc (removeAlloc alloc (start, size)) := by
    have h1 : sumAlloc alloc =
        sumAlloc ((start, size) :: removeAlloc alloc (start, size)) := by
      unfold sumAlloc
      exact List.Perm.sum_eq (List.Perm.map _ hpermA)
    rw [h1, sumAlloc_pair_cons]
  have hS : sumFree (mem_clear free start size) +
      sumAlloc (removeAlloc alloc (start, size)) = cap := by omega
  exact ⟨⟨hB, hP⟩, ⟨hAB, hAP⟩, hD, hS⟩

theorem blockInit_inv (cap : Int) (hcap : 1 ≤ cap) :
    BlockInv cap (memInitState cap) := by
  have hB : ∀ r ∈ [((0 : Int), cap - 1)], 0 ≤ r.1 ∧ r.1 ≤ r.2 ∧ r.2 < cap := by
    intro r hr
    rw [List.mem_singleton] at hr
    subst hr
    exact ⟨le_refl 0, show (0 : Int) ≤ cap - 1 by omega,
           show cap - 1 < cap by omega⟩
  have hP : ([((0 : Int), cap - 1)]).Pairwise (fun x y => x.2 < y.1) :=
    List.pairwise_singleton _ _
  have hAB : ∀ r ∈ ([] : List (Int × Int)),
      1 ≤ r.2 ∧ 0 ≤ r.1 ∧ r.1 + r.2 ≤ cap := by simp
  have hAP : ([] : List (Int × Int)).Pairwise
      (fun x y => x.1 + x.2 ≤ y.1 ∨ y.1 + y.2 ≤ x.1) := List.Pairwise.nil
  have hD : ∀ f ∈ [((0 : Int), cap - 1)], ∀ x ∈ ([] : List (Int × Int)),
      f.2 < x.1 ∨ x.1 + x.2 ≤ f.1 := by simp
  have hS : sumFree [((0 : Int), cap - 1)] + sumAlloc [] = cap := by
    rw [sumFree_pair_cons, sumFree_nil, sumAlloc_nil]
    omega
  exact ⟨⟨hB, hP⟩, ⟨hAB, hAP⟩, hD, hS⟩

theorem stepOp_alloc (st : BlockState) (size : Int) :
    stepOp st (MemOp.alloc size) =
      match mem_alloc st.free_blocks size with
      | none => st
      | some (a, fb) => ⟨fb, (a, size) :: st.allocated⟩ := rfl

theorem runOps_inv (cap : Int) (st : BlockState) (ops : List MemOp)
    (hinv : BlockInv cap st) (hv : validOps st ops = true) :
    BlockInv cap (runOps st ops) := by
  induction ops generalizing st with
  | nil => exact hinv
  | cons op ops ih =>
    simp only [validOps, Bool.and_eq_true] at hv
    obtain ⟨h1, h2⟩ := hv
    have hstep : BlockInv cap (stepOp st op) := by
      obtain ⟨⟨hbounds, hpair⟩, ⟨habounds, hapair⟩, hdisj, hsum⟩ := hinv
      cases op with
      | alloc size =>
        have hs : (1 : Int) ≤ size := by simpa [validOp] using h1
        show BlockInv cap (stepOp st (MemOp.alloc size))
        rw [stepOp_alloc]
        cases halloc : mem_alloc st.free_blocks size with
        | none => exact ⟨⟨hbounds, hpair⟩, ⟨habounds, hapair⟩, hdisj, hsum⟩
        | some p =>
          obtain ⟨a, fb⟩ := p
          exact stepAlloc_inv cap size a st.free_blocks fb st.allocated
            hbounds hpair habounds hapair hdisj hsum hs halloc
      | clear start size =>
        have hm : (start, size) ∈ st.allocated := by simpa [validOp] using h1
        exact stepClear_inv cap start size st.free_blocks st.allocated
          hbounds hpair habounds hapair hdisj hsum hm
    exact ih (stepOp st op) hstep h2

/-- C2: for every sequence of valid allocate and free calls on a single Block
(allocations of positive size; each free returns exactly one currently live
allocation), the free-list ranges remain pairwise disjoint, remain sorted by
offset, and the sum of the free lengths plus the sum of the allocated lengths
equals the block's capacity, at every point of the run. -/
theorem free_list_invariant (cap : Int) (ops : List MemOp) (hcap : 1 ≤ cap)
    (hv : validOps (memInitState cap) ops = true) :
    (runOps (memInitState cap) ops).free_blocks.Pairwise
      (fun x y => x.2 < y.1 ∨ y.2 < x.1) ∧
    (runOps (memInitState cap) ops).free_blocks.Pairwise
      (fun x y => x.1 < y.1) ∧
    sumFree (runOps (memInitState cap) ops).free_blocks +
      sumAlloc (runOps (memInitState cap) ops).allocated = cap := by
  obtain ⟨⟨hb, hp⟩, _, _, hs⟩ :=
    runOps_inv cap (memInitState cap) ops (blockInit_inv cap hcap) hv
  refine ⟨hp.imp (fun h => Or.inl h), ?_, hs⟩
  refine hp.imp_of_mem ?_
  intro x y hx hy hxy
  have h1 : x.1 ≤ x.2 := (hb x hx).2.1
  omega

theorem free_list_invariant_witness :
    (runOps (memInitState 100)
        [MemOp.alloc 50, MemOp.clear 0 50, MemOp.alloc 30]).free_blocks.Pairwise
      (fun x y => x.2 < y.1 ∨ y.2 < x.1) ∧
    (runOps (memInitState 100)
        [MemOp.alloc 50, MemOp.clear 0 50, MemOp.alloc 30]).free_blocks.Pairwise
      (fun x y => x.1 < y.1) ∧
    sumFree (runOps (memInitState 100)
        [MemOp.alloc 50, MemOp.clear 0 50, MemOp.alloc 30]).free_blocks +
      sumAlloc (runOps (memInitState 100)
        [MemOp.alloc 50, MemOp.clear 0 50, MemOp.alloc 30]).allocated = 100 :=
  free_list_invariant 100 [MemOp.alloc 50, MemOp.clear 0 50, MemOp.alloc 30]
    (by decide) (by decide)

end GeneChain
